import Mathlib

/-!
# Verification of the German hyphenation engine (`src/utils/hyphenation.ts`)

This file gives a shallow embedding of the hyphenation core: the character
classifiers, the affix and cluster tables, `findSyllableBoundaries`,
`hyphenateWord` and `hyphenateText`.  JavaScript strings are modelled as
`List Char` (all characters involved are BMP code points, so one `Char`
corresponds to one UTF-16 code unit).

Two embeddings of `findSyllableBoundaries` are given:
* a pure one (`findSyllableBoundaries`), which computes the boundary list.
  The source sorts the shared affix arrays in place before every loop that
  scans them, so every scan runs over the length-sorted tables; the pure
  embedding therefore scans the sorted constants directly.
* a state-passing one (`findSyllableBoundariesT`), which additionally threads
  the shared mutable table state (`PREFIXES`, `SUFFIXES`,
  `INSEPARABLE_CLUSTERS`) through the call, modelling the in-place
  `Array.prototype.sort` calls the source performs.
A bridging lemma proves the two agree once the tables have reached their
sorted state.
-/

namespace Hyph

/-- The soft hyphen marker `U+00AD` (`SOFT_HYPHEN` in the source). -/
def SOFT_HYPHEN : Char := '\u00AD'

/-- `VOWELS` from the source: German vowels of either case, including `y`. -/
def VOWELS : List Char := "aeiouäöüyAEIOUÄÖÜY".toList

/-- `isVowel` from the source: membership in `VOWELS`. -/
def isVowel (c : Char) : Bool := VOWELS.contains c

/-- The character class `[a-zA-ZäöüÄÖÜß]` used both by the alphabetic guard of
`hyphenateWord` and (case-insensitively, `/[a-zäöüß]/i`) by `isConsonant`. -/
def isGermanLetter (c : Char) : Bool :=
  ('a' ≤ c && c ≤ 'z') || ('A' ≤ c && c ≤ 'Z') ||
    c = 'ä' || c = 'ö' || c = 'ü' || c = 'Ä' || c = 'Ö' || c = 'Ü' || c = 'ß'

/-- `isConsonant` from the source: `/[a-zäöüß]/i.test(char) && !isVowel(char)`. -/
def isConsonant (c : Char) : Bool := isGermanLetter c && !isVowel c

/-- `String.prototype.toLowerCase`, restricted to the German alphabet that the
guards of `hyphenateWord` allow through (on which it is exact). -/
def toLowerGerman (c : Char) : Char :=
  if 'A' ≤ c && c ≤ 'Z' then Char.ofNat (c.toNat + 32)
  else if c = 'Ä' then 'ä'
  else if c = 'Ö' then 'ö'
  else if c = 'Ü' then 'ü'
  else c

/-- The JavaScript regular-expression whitespace class `\s`, used by
`hyphenateText` to split the text into runs. -/
def isWs (c : Char) : Bool :=
  c = ' ' || c = '\t' || c = '\n' || c = '\u000B' || c = '\u000C' || c = '\r' ||
  c = '\u00A0' || c = '\u1680' || ('\u2000' ≤ c && c ≤ '\u200A') ||
  c = '\u2028' || c = '\u2029' || c = '\u202F' || c = '\u205F' ||
  c = '\u3000' || c = '\uFEFF'

/-- The `PREFIXES` array literal, in source order. -/
def PREFIXES : List (List Char) :=
  (["über", "unter", "hinter", "zwischen", "durch", "wider",
    "ge", "be", "ver", "zer", "ent", "emp", "er", "miss", "un",
    "vor", "nach", "aus", "ein", "auf", "ab", "an", "bei",
    "mit", "zu", "hin", "her", "um", "herum", "hinaus", "heraus"] :
    List String).map String.toList

/-- The `SUFFIXES` array literal, in source order. -/
def SUFFIXES : List (List Char) :=
  (["schaft", "heit", "keit", "ung", "lich", "isch", "chen", "lein",
    "bar", "sam", "haft", "los", "voll", "reich", "arm", "wert",
    "weise", "artig", "mäßig", "tum", "nis", "sal", "sel",
    "tion", "sion", "ieren", "ismus", "ist", "ität"] :
    List String).map String.toList

/-- The `INSEPARABLE_CLUSTERS` array literal, in source order. -/
def INSEPARABLE_CLUSTERS : List (List Char) :=
  (["sch", "ch", "ck", "ph", "th", "qu", "pf", "st", "sp",
    "bl", "br", "cl", "cr", "dr", "fl", "fr", "gl", "gr",
    "kl", "kn", "kr", "pl", "pr", "tr", "schl", "schn",
    "schm", "schr", "schw", "spr", "str"] :
    List String).map String.toList

/-- The in-place `.sort((a, b) => b.length - a.length)` the source applies to
the affix and cluster arrays: a stable sort into length-descending order
(JavaScript `Array.prototype.sort` is stable, as is `List.insertionSort`). -/
def sortLenDesc (l : List (List Char)) : List (List Char) :=
  l.insertionSort (fun a b => b.length ≤ a.length)

/-- The prefix table in the length-sorted state every scan of it observes. -/
def sortedPREFIXES : List (List Char) := sortLenDesc PREFIXES

/-- The suffix table in the length-sorted state every scan of it observes. -/
def sortedSUFFIXES : List (List Char) := sortLenDesc SUFFIXES

/-- JavaScript `String.prototype.includes`: `pat` occurs contiguously in `l`. -/
def containsSeq (l pat : List Char) : Bool :=
  l.tails.any (fun t => pat.isPrefixOf t)

/-- The predicate of the prefix loop of `findSyllableBoundaries`: the body
runs to its `break` for entry `p` iff `lowerWord.startsWith(p)`,
`word.length > p.length + 2`, and the first character after the prefix is a
vowel or consonant (the loop continues scanning otherwise). -/
def prefixPred (lw : List Char) (len : Nat) (p : List Char) : Bool :=
  p.isPrefixOf lw && decide (p.length + 2 < len) &&
    decide (0 < len - p.length) &&
    (isVowel (lw.getD p.length ' ') || isConsonant (lw.getD p.length ' '))

/-- The predicate of the suffix loop of `findSyllableBoundaries`: the body
runs to its `break` for entry `s` iff `lowerWord.endsWith(s)`,
`word.length > s.length + 2`, and at least one character precedes the suffix
(the loop continues scanning otherwise). -/
def suffixPred (lw : List Char) (len : Nat) (s : List Char) : Bool :=
  s.isSuffixOf lw && decide (s.length + 2 < len) && decide (0 < len - s.length)

/-- The prefix scan of `findSyllableBoundaries`: the first entry of the
(length-sorted) prefix table for which the loop body reaches its `break`. -/
def prefixScan (lw : List Char) (len : Nat) : Option (List Char) :=
  sortedPREFIXES.find? (prefixPred lw len)

/-- The suffix scan of `findSyllableBoundaries`: the first entry of the
(length-sorted) suffix table for which the loop body reaches its `break`. -/
def suffixScan (lw : List Char) (len : Nat) : Option (List Char) :=
  sortedSUFFIXES.find? (suffixPred lw len)

/-- The `suffixStart` value `findSyllableBoundaries` computes: `length` minus
the matched suffix length, or `word.length` when no suffix matched. -/
def suffixStartOf (lw : List Char) (len : Nat) : Nat :=
  match suffixScan lw len with
  | some s => len - s.length
  | none => len

/-- One iteration of the interior scan loop of `findSyllableBoundaries` at
index `i`, on the lower-cased word `lw`, accumulating boundaries in `bs`.
In the vowel–consonant–vowel branch the source also computes the length of an
inseparable cluster starting at `i` (sorting the shared cluster array in the
process) but never uses it; the pure embedding drops that dead computation
(`findSyllableBoundariesT` models its table-state effect). -/
def scanStep (lw : List Char) (bs : List Nat) (i : Nat) : List Nat :=
  if i ∈ bs then bs
  else
    let prev := lw.getD (i - 1) ' '
    let curr := lw.getD i ' '
    let nxt := lw.getD (i + 1) ' '
    if isVowel prev && isConsonant curr && isVowel nxt then
      if i ∈ bs then bs else bs ++ [i]
    else if isConsonant prev && isConsonant curr && decide (prev ≠ curr) then
      let testCluster := (lw.drop (i - 1)).take 3
      let isCluster := INSEPARABLE_CLUSTERS.any (fun ic => containsSeq testCluster ic)
      if !isCluster && !(decide (i ∈ bs)) then
        if (lw.take i).any isVowel && (lw.drop i).any isVowel then bs ++ [i] else bs
      else bs
    else if isConsonant prev && decide (curr = prev) && decide (prev ≠ 's') then
      if i ∈ bs then bs else bs ++ [i]
    else bs

/-- `findSyllableBoundaries` from the source (pure value).  Offsets refer to
the original word; classification uses the lower-cased copy. -/
def findSyllableBoundaries (word : List Char) : List Nat :=
  if word.length < 4 then []
  else
    let lw := word.map toLowerGerman
    let prefixEnd : Nat :=
      match prefixScan lw word.length with
      | some p => p.length
      | none => 0
    let bs0 : List Nat :=
      match prefixScan lw word.length with
      | some p => [p.length]
      | none => []
    let suffixStart := suffixStartOf lw word.length
    let bs1 := (List.range' (prefixEnd + 1) (suffixStart - prefixEnd - 2)).foldl
      (scanStep lw) bs0
    let bs2 :=
      if suffixStart < word.length && !(decide (suffixStart ∈ bs1)) &&
          decide (1 < suffixStart) then
        bs1 ++ [suffixStart]
      else bs1
    bs2.insertionSort (· ≤ ·)

/-- The marker-insertion loop of `hyphenateWord`: boundaries are processed in
descending order (`revBs` is the reversed sorted boundary list) and a marker
is inserted at `p` only if `p >= 2 && p <= result.length - 2` for the current
(already partially marked) result. -/
def insertLoop (s : List Char) (revBs : List Nat) : List Char :=
  match revBs with
  | [] => s
  | p :: rest =>
    insertLoop
      (if 2 ≤ p && p + 2 ≤ s.length then s.take p ++ SOFT_HYPHEN :: s.drop p else s)
      rest

/-- `hyphenateWord` from the source. -/
def hyphenateWord (word : List Char) : List Char :=
  if word.length < 5 then word
  else if decide ('-' ∈ word) || decide (SOFT_HYPHEN ∈ word) then word
  else if !word.all isGermanLetter then word
  else if (findSyllableBoundaries word).isEmpty then word
  else insertLoop word (findSyllableBoundaries word).reverse

/-- Accumulating pass splitting a text into maximal runs of characters of
equal `\s`-class; `cls` is the class of the run being accumulated and `acc`
its characters in reverse. -/
def splitRunsGo (cls : Bool) (acc : List Char) : List Char → List (List Char)
  | [] => [acc.reverse]
  | c :: rest =>
    if isWs c == cls then splitRunsGo cls (c :: acc) rest
    else acc.reverse :: splitRunsGo (isWs c) [c] rest

/-- The run decomposition `text.split(/(\s+)/)` performs: the text as its
alternating maximal whitespace / non-whitespace runs (without the empty edge
entries of the JavaScript split, which map to themselves and disappear in the
final join). -/
def splitRuns : List Char → List (List Char)
  | [] => []
  | c :: rest => splitRunsGo (isWs c) [c] rest

/-- The test `/^\s+$/.test(part)`: `part` is nonempty and all whitespace. -/
def wsRunB (r : List Char) : Bool := !r.isEmpty && r.all isWs

/-- The per-part mapping of `hyphenateText`: whitespace runs pass through,
every other run is hyphenated. -/
def hyphenateRun (r : List Char) : List Char :=
  if wsRunB r then r else hyphenateWord r

/-- `hyphenateText` from the source: split into runs, hyphenate the
non-whitespace runs, join. -/
def hyphenateText (text : List Char) : List Char :=
  ((splitRuns text).map hyphenateRun).flatten

/-- Removing every soft hyphen, as in the round-trip properties of the spec. -/
def stripSH (s : List Char) : List Char := s.filter (fun c => c != SOFT_HYPHEN)

/-- Insertion of markers at an ascending list of offsets of the original
word in a single left-to-right pass; used to characterise what the
descending-order `insertLoop` produces. -/
def applyMarkers (w : List Char) (ms : List Nat) : List Char :=
  match ms with
  | [] => w
  | m :: rest =>
    w.take m ++ SOFT_HYPHEN :: applyMarkers (w.drop m) (rest.map (fun x => x - m))
termination_by ms.length
decreasing_by simp

/-- The shared module-level table state: the `PREFIXES`, `SUFFIXES` and
`INSEPARABLE_CLUSTERS` arrays, which the source mutates in place by calling
`.sort(...)` on them inside `findSyllableBoundaries`. -/
structure HyphTables where
  pfx : List (List Char)
  sfx : List (List Char)
  cls : List (List Char)
deriving DecidableEq

/-- The table state at process start: the array literals, in source order
(not sorted by length). -/
def initTables : HyphTables :=
  { pfx := PREFIXES, sfx := SUFFIXES, cls := INSEPARABLE_CLUSTERS }

/-- The table state once each list has been stably sorted longest-first. -/
def stableTables : HyphTables :=
  { pfx := sortLenDesc PREFIXES, sfx := sortLenDesc SUFFIXES,
    cls := sortLenDesc INSEPARABLE_CLUSTERS }

/-- One iteration of the interior scan loop, with the shared table state
threaded through: entering the vowel–consonant–vowel branch re-sorts the
shared cluster array in place (`INSEPARABLE_CLUSTERS.sort(...)`) while
computing an unused candidate cluster length; the consonant–consonant branch
reads the cluster array in its current order (a pure membership test). -/
def scanStepT (lw : List Char) (st : List Nat × HyphTables) (i : Nat) :
    List Nat × HyphTables :=
  let bs := st.1
  let t := st.2
  if i ∈ bs then (bs, t)
  else
    let prev := lw.getD (i - 1) ' '
    let curr := lw.getD i ' '
    let nxt := lw.getD (i + 1) ' '
    if isVowel prev && isConsonant curr && isVowel nxt then
      let sortedCls := sortLenDesc t.cls
      let _clusterLen :=
        match sortedCls.find? (fun ic => ic.isPrefixOf ((lw.drop i).take 4)) with
        | some ic => ic.length
        | none => 1
      (if i ∈ bs then bs else bs ++ [i], { t with cls := sortedCls })
    else if isConsonant prev && isConsonant curr && decide (prev ≠ curr) then
      let testCluster := (lw.drop (i - 1)).take 3
      let isCluster := t.cls.any (fun ic => containsSeq testCluster ic)
      (if !isCluster && !(decide (i ∈ bs)) then
        if (lw.take i).any isVowel && (lw.drop i).any isVowel then bs ++ [i] else bs
      else bs, t)
    else if isConsonant prev && decide (curr = prev) && decide (prev ≠ 's') then
      (if i ∈ bs then bs else bs ++ [i], t)
    else (bs, t)

/-- `findSyllableBoundaries` with the shared table state threaded through:
returns the boundary list together with the table state after the call.  The
prefix and suffix loops iterate over `PREFIXES.sort(...)` and
`SUFFIXES.sort(...)`, which re-sort those shared arrays in place before the
iteration starts. -/
def findSyllableBoundariesT (word : List Char) (t : HyphTables) :
    List Nat × HyphTables :=
  if word.length < 4 then ([], t)
  else
    let lw := word.map toLowerGerman
    let sp := sortLenDesc t.pfx
    let t1 : HyphTables := { t with pfx := sp }
    let pRes := sp.find? (prefixPred lw word.length)
    let prefixEnd : Nat :=
      match pRes with
      | some p => p.length
      | none => 0
    let bs0 : List Nat :=
      match pRes with
      | some p => [p.length]
      | none => []
    let ss := sortLenDesc t1.sfx
    let t2 : HyphTables := { t1 with sfx := ss }
    let suffixStart : Nat :=
      match ss.find? (suffixPred lw word.length) with
      | some s => word.length - s.length
      | none => word.length
    let res := (List.range' (prefixEnd + 1) (suffixStart - prefixEnd - 2)).foldl
      (scanStepT lw) (bs0, t2)
    let bs2 :=
      if suffixStart < word.length && !(decide (suffixStart ∈ res.1)) &&
          decide (1 < suffixStart) then
        res.1 ++ [suffixStart]
      else res.1
    (bs2.insertionSort (· ≤ ·), res.2)

/-- `hyphenateWord` with the shared table state threaded through. -/
def hyphenateWordT (word : List Char) (t : HyphTables) :
    List Char × HyphTables :=
  if word.length < 5 then (word, t)
  else if decide ('-' ∈ word) || decide (SOFT_HYPHEN ∈ word) then (word, t)
  else if !word.all isGermanLetter then (word, t)
  else if (findSyllableBoundariesT word t).1.isEmpty then
    (word, (findSyllableBoundariesT word t).2)
  else
    (insertLoop word (findSyllableBoundariesT word t).1.reverse,
      (findSyllableBoundariesT word t).2)


/-- The whitespace class of a run (for nonempty class-uniform runs, the class
of every character in it). -/
def runWs (r : List Char) : Bool := r.any isWs

/-- Every character of `r` has whitespace-class `b`. -/
def uniformRun (b : Bool) (r : List Char) : Prop := ∀ c ∈ r, isWs c = b

/-- A valid run decomposition: nonempty class-uniform runs with alternating
classes, as produced by splitting on `/(\\s+)/`. -/
def goodRuns (rs : List (List Char)) : Prop :=
  rs.Chain' (fun a b => runWs a ≠ runWs b) ∧
    ∀ r ∈ rs, r ≠ [] ∧ uniformRun (runWs r) r

/-! ## Basic lemmas about the marker-insertion loop -/

theorem insertLoop_stripSH (L : List Nat) (s : List Char) :
    stripSH (insertLoop s L) = stripSH s := by
  induction L generalizing s with
  | nil => rfl
  | cons p rest ih =>
    rw [insertLoop]
    rw [ih]
    split
    · simp only [stripSH, List.filter_append, List.filter_cons]
      have : (SOFT_HYPHEN != SOFT_HYPHEN) = false := by simp
      rw [this]
      simp only [Bool.false_eq_true, if_false]
      rw [← List.filter_append, List.take_append_drop]
    · rfl

theorem insertLoop_eq_or_memSH (L : List Nat) (s : List Char) :
    insertLoop s L = s ∨ SOFT_HYPHEN ∈ insertLoop s L := by
  induction L generalizing s with
  | nil => exact Or.inl rfl
  | cons p rest ih =>
    rw [insertLoop]
    split
    · right
      rcases ih (s.take p ++ SOFT_HYPHEN :: s.drop p) with h | h
      · rw [h]; exact List.mem_append_right _ (List.mem_cons_self _ _)
      · exact h
    · exact ih s

theorem insertLoop_subset (L : List Nat) (s : List Char) (c : Char)
    (hc : c ∈ insertLoop s L) : c ∈ s ∨ c = SOFT_HYPHEN := by
  induction L generalizing s with
  | nil => exact Or.inl hc
  | cons p rest ih =>
    rw [insertLoop] at hc
    rcases hc' : (2 ≤ p && p + 2 ≤ s.length : Bool) with _ | _
    · rw [hc'] at hc; simp only [if_neg Bool.false_ne_true] at hc
      exact ih s hc
    · rw [hc'] at hc; simp only [if_pos rfl] at hc
      rcases ih _ hc with h | h
      · rcases List.mem_append.1 h with h1 | h1
        · exact Or.inl (List.take_subset _ _ h1)
        · rcases List.mem_cons.1 h1 with h2 | h2
          · exact Or.inr h2
          · exact Or.inl (List.drop_subset _ _ h2)
      · exact Or.inr h

theorem insertLoop_length_le (L : List Nat) (s : List Char) :
    s.length ≤ (insertLoop s L).length := by
  induction L generalizing s with
  | nil => exact Nat.le_refl _
  | cons p rest ih =>
    rw [insertLoop]
    split
    · refine Nat.le_trans ?_ (ih _)
      simp
      omega
    · exact ih s

/-! ## Basic lemmas about `hyphenateWord` -/

theorem hyphenateWord_short {w : List Char} (h : w.length < 5) :
    hyphenateWord w = w := by
  simp [hyphenateWord, h]

theorem hyphenateWord_of_memSH {w : List Char} (h : SOFT_HYPHEN ∈ w) :
    hyphenateWord w = w := by
  rw [hyphenateWord]
  split
  · rfl
  · rw [if_pos]
    simp [h]

theorem hyphenateWord_of_nonGerman {w : List Char}
    (h : ∃ c ∈ w, isGermanLetter c = false) : hyphenateWord w = w := by
  rw [hyphenateWord]
  split
  · rfl
  · split
    · rfl
    · rw [if_pos]
      rcases h with ⟨c, hc, hcg⟩
      simp only [Bool.not_eq_true']
      rw [List.all_eq_false]
      exact ⟨c, hc, by simp [hcg]⟩

theorem hyphenateWord_ne_imp_memSH {w : List Char}
    (h : hyphenateWord w ≠ w) : SOFT_HYPHEN ∈ hyphenateWord w := by
  rw [hyphenateWord] at h ⊢
  split at h
  · exact absurd rfl h
  · split at h
    · exact absurd rfl h
    · split at h
      · exact absurd rfl h
      · split at h
        · exact absurd rfl h
        · rw [if_neg (by assumption), if_neg (by assumption),
            if_neg (by assumption), if_neg (by assumption)]
          rcases insertLoop_eq_or_memSH (findSyllableBoundaries w).reverse w with
            he | hm
          · exact absurd he h
          · exact hm

theorem stripSH_of_not_memSH {w : List Char} (h : SOFT_HYPHEN ∉ w) :
    stripSH w = w := by
  rw [stripSH, List.filter_eq_self]
  intro c hc
  simp only [bne_iff_ne, ne_eq]
  intro he
  exact h (he ▸ hc)

theorem stripSH_hyphenateWord {w : List Char} (h : SOFT_HYPHEN ∉ w) :
    stripSH (hyphenateWord w) = w := by
  rw [hyphenateWord]
  split
  · exact stripSH_of_not_memSH h
  · split
    · exact stripSH_of_not_memSH h
    · split
      · exact stripSH_of_not_memSH h
      · split
        · exact stripSH_of_not_memSH h
        · rw [insertLoop_stripSH]
          exact stripSH_of_not_memSH h

theorem hyphenateWord_ne_nil {w : List Char} (h : w ≠ []) :
    hyphenateWord w ≠ [] := by
  rw [hyphenateWord]
  split
  · exact h
  · split
    · exact h
    · split
      · exact h
      · split
        · exact h
        · intro he
          have := insertLoop_length_le (findSyllableBoundaries w).reverse w
          rw [he] at this
          simp at this
          exact h this

theorem hyphenateWord_subset {w : List Char} {c : Char}
    (hc : c ∈ hyphenateWord w) : c ∈ w ∨ c = SOFT_HYPHEN := by
  rw [hyphenateWord] at hc
  split at hc
  · exact Or.inl hc
  · split at hc
    · exact Or.inl hc
    · split at hc
      · exact Or.inl hc
      · split at hc
        · exact Or.inl hc
        · exact insertLoop_subset _ _ _ hc

/-! ## Claim theorems: C2, C5, C6, C8, C9 -/

/-- C5: `hyphenateWord` is idempotent: for every string `w`,
`hyphenateWord (hyphenateWord w) = hyphenateWord w`, because the guard on an
existing hyphen or soft-hyphen marker makes re-application a no-op. -/
theorem C5_hyphenateWord_idempotent (w : List Char) :
    hyphenateWord (hyphenateWord w) = hyphenateWord w := by
  by_cases heq : hyphenateWord w = w
  · rw [heq]
    exact heq
  · exact hyphenateWord_of_memSH (hyphenateWord_ne_imp_memSH heq)

/-- C6 (counterexample): for the input consisting of a single soft hyphen,
removing every U+00AD character from `hyphenateWord w` yields the empty
string, not `w`: the claimed round-trip fails for words that already contain
U+00AD (the guard returns them unchanged, markers included). -/
theorem C6_counterexample :
    stripSH (hyphenateWord "\u00AD".toList) ≠ "\u00AD".toList := by decide

/-- C6 (amended): for every string `w` that does not already contain U+00AD,
removing every U+00AD character from `hyphenateWord w` yields exactly `w`:
the output is the input with zero or more soft hyphens inserted and no
original character changed, reordered, or re-cased. -/
theorem C6_roundTrip (w : List Char) (h : SOFT_HYPHEN ∉ w) :
    stripSH (hyphenateWord w) = w :=
  stripSH_hyphenateWord h

/-- C6 (witness): the round-trip theorem applied to the word `HAMBURG`. -/
theorem C6_roundTrip_witness :
    SOFT_HYPHEN ∉ "HAMBURG".toList ∧
      stripSH (hyphenateWord "HAMBURG".toList) = "HAMBURG".toList :=
  ⟨by decide, C6_roundTrip "HAMBURG".toList (by decide)⟩

/-- C8: for every word `w` with length strictly less than 5 characters,
`hyphenateWord w` returns `w` unchanged. -/
theorem C8_minLength (w : List Char) (h : w.length < 5) :
    hyphenateWord w = w :=
  hyphenateWord_short h

/-- C8 (witness): the minimum-length theorem applied to the word `ROT`. -/
theorem C8_minLength_witness :
    ("ROT".toList.length < 5) ∧ hyphenateWord "ROT".toList = "ROT".toList :=
  ⟨by decide, C8_minLength "ROT".toList (by decide)⟩

/-- C9: `hyphenateWord "HAMBURG"` returns `"HAM" ++ U+00AD ++ "BURG"`, and the
only boundary `findSyllableBoundaries` finds is offset 3 (the
consonant–consonant split between `M` and `B`); no other rule, prefix or
suffix contributes a boundary. -/
theorem C9_hamburg :
    hyphenateWord "HAMBURG".toList = "HAM\u00ADBURG".toList ∧
      findSyllableBoundaries "HAMBURG".toList = [3] := by
  constructor
  · decide
  · decide

/-- C2 (code evaluation at the failing input): on the word `arnfal` the code
finds the adjacent boundaries 2 and 3 and inserts a marker at both (the
insertion clamp compares each offset against the length of the partially
marked result, which has already grown), leaving the single original
character `n` between the two markers: the maximal run between markers has
length 1, not the claimed minimum of 2. -/
theorem C2_code_bug_eval :
    hyphenateWord "arnfal".toList = "ar\u00ADn\u00ADfal".toList ∧
      findSyllableBoundaries "arnfal".toList = [2, 3] ∧
      (hyphenateWord "arnfal".toList)[2]? = some SOFT_HYPHEN ∧
      (hyphenateWord "arnfal".toList)[3]? = some 'n' ∧
      (hyphenateWord "arnfal".toList)[4]? = some SOFT_HYPHEN ∧
      'n' ≠ SOFT_HYPHEN := by
  refine ⟨by decide, by decide, by decide, by decide, by decide, by decide⟩

/-! ## C4: the suffix boundary -/

theorem find?_longest {pred : List Char → Bool} {l : List (List Char)}
    (hp : l.Pairwise (fun a b => b.length ≤ a.length)) {s : List Char}
    (hs : s ∈ l) (hpred : pred s = true) :
    ∃ t, l.find? pred = some t ∧ pred t = true ∧ s.length ≤ t.length := by
  induction l with
  | nil => exact absurd hs (List.not_mem_nil s)
  | cons h tl ih =>
    rcases hph : pred h with _ | _
    · rw [List.find?_cons_of_neg _ (by simp [hph])]
      have hs' : s ∈ tl := by
        rcases List.mem_cons.1 hs with rfl | h2
        · rw [hph] at hpred; exact absurd hpred (by simp)
        · exact h2
      exact ih (List.pairwise_cons.1 hp).2 hs'
    · rw [List.find?_cons_of_pos _ hph]
      refine ⟨h, rfl, hph, ?_⟩
      rcases List.mem_cons.1 hs with rfl | h2
      · exact Nat.le_refl _
      · exact (List.pairwise_cons.1 hp).1 s h2

theorem suffixStart_mem_findSyllableBoundaries (w : List Char)
    (h4 : ¬ w.length < 4)
    (h1 : suffixStartOf (w.map toLowerGerman) w.length < w.length)
    (h2 : 1 < suffixStartOf (w.map toLowerGerman) w.length) :
    suffixStartOf (w.map toLowerGerman) w.length ∈ findSyllableBoundaries w := by
  rw [findSyllableBoundaries, if_neg h4]
  simp only [List.mem_insertionSort]
  by_cases hm :
    suffixStartOf (w.map toLowerGerman) w.length ∈
      (List.range'
        ((match prefixScan (w.map toLowerGerman) w.length with
          | some p => p.length
          | none => 0) + 1)
        (suffixStartOf (w.map toLowerGerman) w.length -
          (match prefixScan (w.map toLowerGerman) w.length with
            | some p => p.length
            | none => 0) - 2)).foldl (scanStep (w.map toLowerGerman))
        (match prefixScan (w.map toLowerGerman) w.length with
          | some p => [p.length]
          | none => [])
  · split
    · exact List.mem_append_left _ hm
    · exact hm
  · rw [if_pos]
    · exact List.mem_append_right _ (List.mem_cons_self _ _)
    · simp only [Bool.and_eq_true, decide_eq_true_eq, Bool.not_eq_true',
        decide_eq_false_iff_not]
      exact ⟨⟨by simpa using h1, hm⟩, h2⟩

/-- C4 (counterexample): the word `euung` passes every no-op precondition and
its lower-cased form ends with the known suffix `ung`, leaving at least one
character (two, in fact) before the suffix; the claim then asserts
`suffixStart = 5 - 3 = 2` is recorded and, since `2 < 5` and `2 > 1`, included
in the boundary set — but the code requires `word.length > suffix.length + 2`
(at least three characters before the suffix), so it records no suffix at all
and returns the empty boundary set. -/
theorem C4_counterexample :
    (5 ≤ "euung".toList.length) ∧ ('-' ∉ "euung".toList) ∧
      (SOFT_HYPHEN ∉ "euung".toList) ∧
      ("euung".toList.all isGermanLetter = true) ∧
      "ung".toList ∈ SUFFIXES ∧
      ("ung".toList.isSuffixOf ("euung".toList.map toLowerGerman) = true) ∧
      (0 < "euung".toList.length - "ung".toList.length) ∧
      "euung".toList.length - "ung".toList.length = 2 ∧
      (2 < "euung".toList.length) ∧ (1 < 2) ∧
      suffixStartOf ("euung".toList.map toLowerGerman) "euung".toList.length =
        "euung".toList.length ∧
      findSyllableBoundaries "euung".toList = [] := by
  decide

/-- C4 (amended): for every word passing the no-op preconditions whose
lower-cased form ends with a known suffix leaving at least THREE characters
before the suffix (the code requires `word.length > suffix.length + 2`),
`findSyllableBoundaries` records `suffixStart = length - suffix length`,
trying longer suffix candidates first (the recorded suffix is at least as
long as any matching one), and that offset is included in the returned
boundary set whenever `suffixStart < word length` and `suffixStart > 1`
(whether or not it was already recorded). -/
theorem C4_suffixBoundary (w s : List Char)
    (hpre1 : 5 ≤ w.length) (_hpre2 : '-' ∉ w) (_hpre3 : SOFT_HYPHEN ∉ w)
    (_hpre4 : w.all isGermanLetter = true)
    (hs : s ∈ SUFFIXES)
    (hend : s.isSuffixOf (w.map toLowerGerman) = true)
    (hlen : s.length + 2 < w.length) :
    ∃ t, suffixScan (w.map toLowerGerman) w.length = some t ∧
      t ∈ SUFFIXES ∧ t.isSuffixOf (w.map toLowerGerman) = true ∧
      suffixStartOf (w.map toLowerGerman) w.length = w.length - t.length ∧
      s.length ≤ t.length ∧
      suffixStartOf (w.map toLowerGerman) w.length < w.length ∧
      (1 < suffixStartOf (w.map toLowerGerman) w.length →
        suffixStartOf (w.map toLowerGerman) w.length ∈
          findSyllableBoundaries w) := by
  have hsorted : sortedSUFFIXES.Pairwise (fun a b => b.length ≤ a.length) := by
    decide
  have hs' : s ∈ sortedSUFFIXES := by
    rw [sortedSUFFIXES, sortLenDesc]
    exact (List.mem_insertionSort _).2 hs
  have hpred : suffixPred (w.map toLowerGerman) w.length s = true := by
    rw [suffixPred, hend]
    simp only [Bool.true_and, Bool.and_eq_true, decide_eq_true_eq]
    omega
  obtain ⟨t, hfind, htpred, htle⟩ := find?_longest hsorted hs' hpred
  have htmem : t ∈ SUFFIXES := by
    have := List.mem_of_find?_eq_some hfind
    rw [sortedSUFFIXES, sortLenDesc] at this
    exact (List.mem_insertionSort _).1 this
  have htparts := htpred
  rw [suffixPred] at htparts
  simp only [Bool.and_eq_true, decide_eq_true_eq] at htparts
  obtain ⟨⟨htend, htlen⟩, htpos⟩ := htparts
  have hscan : suffixScan (w.map toLowerGerman) w.length = some t := hfind
  have hval : suffixStartOf (w.map toLowerGerman) w.length =
      w.length - t.length := by
    rw [suffixStartOf, hscan]
  have ht3 : 3 ≤ t.length := by
    have hh : ∀ x ∈ SUFFIXES, 3 ≤ x.length := by decide
    exact hh t htmem
  have hlt : suffixStartOf (w.map toLowerGerman) w.length < w.length := by
    rw [hval]; omega
  refine ⟨t, hscan, htmem, htend, hval, htle, hlt, ?_⟩
  intro h2
  exact suffixStart_mem_findSyllableBoundaries w (by omega) hlt h2

/-- C4 (witness): the amended suffix theorem applied to the word `mutung`
with the suffix `ung`. -/
theorem C4_suffixBoundary_witness :
    (5 ≤ "mutung".toList.length) ∧
      (∃ t, suffixScan ("mutung".toList.map toLowerGerman)
          "mutung".toList.length = some t ∧
        t ∈ SUFFIXES ∧
        t.isSuffixOf ("mutung".toList.map toLowerGerman) = true ∧
        suffixStartOf ("mutung".toList.map toLowerGerman)
            "mutung".toList.length = "mutung".toList.length - t.length ∧
        "ung".toList.length ≤ t.length ∧
        suffixStartOf ("mutung".toList.map toLowerGerman)
            "mutung".toList.length < "mutung".toList.length ∧
        (1 < suffixStartOf ("mutung".toList.map toLowerGerman)
            "mutung".toList.length →
          suffixStartOf ("mutung".toList.map toLowerGerman)
              "mutung".toList.length ∈
            findSyllableBoundaries "mutung".toList)) :=
  ⟨by decide,
    C4_suffixBoundary "mutung".toList "ung".toList (by decide) (by decide)
      (by decide) (by decide) (by decide) (by decide) (by decide)⟩

/-! ## C3: positions of inserted markers -/

theorem nodupConcat {bs : List Nat} {i : Nat} (h : bs.Nodup) (hi : i ∉ bs) :
    (bs ++ [i]).Nodup := by
  simp [List.nodup_append, h, hi]

theorem scanStep_shape (lw : List Char) (bs : List Nat) (i : Nat) :
    scanStep lw bs i = bs ∨ (i ∉ bs ∧ scanStep lw bs i = bs ++ [i]) := by
  simp only [scanStep]
  split_ifs with h1 <;>
    first | exact Or.inl rfl | exact Or.inr ⟨h1, rfl⟩

theorem scanStep_nodup (lw : List Char) {bs : List Nat} (i : Nat)
    (h : bs.Nodup) : (scanStep lw bs i).Nodup := by
  rcases scanStep_shape lw bs i with he | ⟨hni, he⟩ <;> rw [he]
  · exact h
  · exact nodupConcat h hni

theorem foldl_scanStep_nodup (lw : List Char) (L : List Nat) {bs : List Nat}
    (h : bs.Nodup) : (L.foldl (scanStep lw) bs).Nodup := by
  induction L generalizing bs with
  | nil => exact h
  | cons i L ih => exact ih (scanStep_nodup lw i h)

theorem findSyllableBoundaries_nodup (w : List Char) :
    (findSyllableBoundaries w).Nodup := by
  rw [findSyllableBoundaries]
  split
  · exact List.nodup_nil
  · rw [List.Perm.nodup_iff (List.perm_insertionSort _ _)]
    have hbs0 :
        (match prefixScan (w.map toLowerGerman) w.length with
          | some p => [p.length]
          | none => ([] : List Nat)).Nodup := by
      rcases prefixScan (w.map toLowerGerman) w.length with _ | p
      · exact List.nodup_nil
      · exact List.nodup_singleton _
    have hbs1 := foldl_scanStep_nodup (w.map toLowerGerman)
      (List.range'
        ((match prefixScan (w.map toLowerGerman) w.length with
          | some p => p.length
          | none => 0) + 1)
        (suffixStartOf (w.map toLowerGerman) w.length -
          (match prefixScan (w.map toLowerGerman) w.length with
            | some p => p.length
            | none => 0) - 2)) hbs0
    split
    · rename_i hcond
      simp only [Bool.and_eq_true, Bool.not_eq_true',
        decide_eq_false_iff_not] at hcond
      exact nodupConcat hbs1 hcond.1.2
    · exact hbs1

theorem pairwise_lt_of_sorted_nodup {l : List Nat}
    (hs : l.Sorted (· ≤ ·)) (hn : l.Nodup) : l.Pairwise (· < ·) :=
  (hs.and hn).imp (fun h => Nat.lt_of_le_of_ne h.1 h.2)

theorem findSyllableBoundaries_pairwise_lt (w : List Char) :
    (findSyllableBoundaries w).Pairwise (· < ·) := by
  have hn := findSyllableBoundaries_nodup w
  refine pairwise_lt_of_sorted_nodup ?_ hn
  rw [findSyllableBoundaries]
  split
  · exact List.sorted_nil
  · exact List.sorted_insertionSort _ _

theorem applyMarkers_stripSH (ms : List Nat) (w : List Char)
    (h : SOFT_HYPHEN ∉ w) : stripSH (applyMarkers w ms) = w := by
  induction w, ms using applyMarkers.induct with
  | case1 w => rw [applyMarkers]; exact stripSH_of_not_memSH h
  | case2 w m rest ih =>
    rw [applyMarkers]
    simp only [stripSH, List.filter_append, List.filter_cons]
    have hne : (SOFT_HYPHEN != SOFT_HYPHEN) = false := by simp
    rw [hne]
    simp only [Bool.false_eq_true, if_false]
    have h1 : List.filter (fun c => c != SOFT_HYPHEN) (w.take m) = w.take m :=
      stripSH_of_not_memSH (fun hc => h (List.take_subset _ _ hc))
    have h2 := ih (fun hc => h (List.drop_subset _ _ hc))
    rw [h1]
    rw [stripSH] at h2
    rw [h2, List.take_append_drop]

theorem applyMarkers_length (ms : List Nat) (w : List Char) :
    (applyMarkers w ms).length = w.length + ms.length := by
  induction w, ms using applyMarkers.induct with
  | case1 w => rw [applyMarkers]; rfl
  | case2 w m rest ih =>
    rw [applyMarkers]
    simp only [List.length_append, List.length_cons, List.length_take, ih,
      List.length_drop, List.length_map]
    omega

theorem insertAt_applyMarkers (w : List Char) (ms : List Nat) (p : Nat)
    (hms : ms.Pairwise (· < ·)) (hp : ∀ m ∈ ms, p ≤ m) (hpw : p ≤ w.length) :
    (applyMarkers w ms).take p ++ SOFT_HYPHEN :: (applyMarkers w ms).drop p =
      applyMarkers w (p :: ms) := by
  rcases ms with _ | ⟨m, rest⟩
  · simp [applyMarkers]
  · have hpm : p ≤ m := hp m (List.mem_cons_self _ _)
    have hrest : ∀ x ∈ rest, m < x := fun x hx =>
      (List.pairwise_cons.1 hms).1 x hx
    rw [applyMarkers]
    conv_rhs => rw [applyMarkers]
    simp only [List.map_cons]
    conv_rhs => rw [applyMarkers]
    have hlt : (w.take m).length = min m w.length := List.length_take m w
    have htake : (w.take m ++ SOFT_HYPHEN ::
        applyMarkers (w.drop m) (rest.map (fun x => x - m))).take p =
        w.take p := by
      rw [List.take_append_of_le_length
          (by rw [List.length_take]; exact le_min hpm hpw),
        List.take_take, Nat.min_eq_left hpm]
    have hdrop : (w.take m ++ SOFT_HYPHEN ::
        applyMarkers (w.drop m) (rest.map (fun x => x - m))).drop p =
        (w.drop p).take (m - p) ++ SOFT_HYPHEN ::
          applyMarkers (w.drop m) (rest.map (fun x => x - m)) := by
      rw [List.drop_append_of_le_length
          (by rw [List.length_take]; exact le_min hpm hpw),
        List.drop_take]
    rw [htake, hdrop]
    simp only [List.map_cons, List.map_map]
    have hA : List.drop (m - p) (List.drop p w) = List.drop m w := by
      rw [List.drop_drop]
      congr 1
      omega
    have hB : List.map ((fun x => x - (m - p)) ∘ fun x => x - p) rest =
        List.map (fun x => x - m) rest :=
      List.map_congr_left (fun x hx => by
        have := hrest x hx
        simp only [Function.comp_apply]
        omega)
    rw [hA, hB]

theorem insertLoop_applyMarkers (w : List Char) (L : List Nat) :
    ∀ ms : List Nat, L.Pairwise (· > ·) → ms.Pairwise (· < ·) →
    (∀ p ∈ L, ∀ m ∈ ms, p < m) →
    (∀ m ∈ ms, 2 ≤ m ∧ m + 2 ≤ w.length) →
    ∃ ms2, insertLoop (applyMarkers w ms) L = applyMarkers w ms2 ∧
      ms2.Pairwise (· < ·) ∧ ∀ m ∈ ms2, 2 ≤ m ∧ m + 2 ≤ w.length := by
  induction L with
  | nil => exact fun ms _ hms _ hbound => ⟨ms, rfl, hms, hbound⟩
  | cons p L ih =>
    intro ms hL hms hLm hbound
    rw [insertLoop]
    split
    · rename_i hc
      simp only [Bool.and_eq_true, decide_eq_true_eq] at hc
      have hpm : ∀ m ∈ ms, p < m := fun m hm =>
        hLm p (List.mem_cons_self _ _) m hm
      have hpw : p + 2 ≤ w.length := by
        rcases ms with _ | ⟨m0, rest⟩
        · have := hc.2
          rw [applyMarkers_length] at this
          simpa using this
        · have h1 := hpm m0 (List.mem_cons_self _ _)
          have h2 := (hbound m0 (List.mem_cons_self _ _)).2
          omega
      rw [insertAt_applyMarkers w ms p hms (fun m hm => Nat.le_of_lt (hpm m hm))
        (by omega)]
      refine ih (p :: ms) ((List.pairwise_cons.1 hL).2) ?_ ?_ ?_
      · rw [List.pairwise_cons]
        exact ⟨hpm, hms⟩
      · intro q hq m hm
        rcases List.mem_cons.1 hm with rfl | hm2
        · exact (List.pairwise_cons.1 hL).1 q hq
        · exact hLm q (List.mem_cons.2 (Or.inr hq)) m hm2
      · intro m hm
        rcases List.mem_cons.1 hm with rfl | hm2
        · exact ⟨hc.1, hpw⟩
        · exact hbound m hm2
    · exact ih ms ((List.pairwise_cons.1 hL).2) hms
        (fun q hq m hm => hLm q (List.mem_cons.2 (Or.inr hq)) m hm) hbound

theorem applyMarkers_markerSplit (w : List Char) (ms : List Nat) :
    SOFT_HYPHEN ∉ w → ms.Pairwise (· < ·) → (∀ m ∈ ms, m ≤ w.length) →
    ∀ j, (applyMarkers w ms)[j]? = some SOFT_HYPHEN →
    ∃ m ∈ ms, stripSH ((applyMarkers w ms).take j) = w.take m ∧
      stripSH ((applyMarkers w ms).drop (j + 1)) = w.drop m := by
  induction w, ms using applyMarkers.induct with
  | case1 w =>
    intro hSH _ _ j hj
    rw [applyMarkers] at hj
    exact absurd (List.getElem?_mem hj) hSH
  | case2 w m rest ih =>
    intro hSH hms hbound j hj
    have hmw : m ≤ w.length := hbound m (List.mem_cons_self _ _)
    have hA : (w.take m).length = m := by
      rw [List.length_take]
      exact Nat.min_eq_left hmw
    have hrest : ∀ x ∈ rest, m < x := fun x hx =>
      (List.pairwise_cons.1 hms).1 x hx
    rw [applyMarkers] at hj ⊢
    rcases Nat.lt_trichotomy j m with hlt | heq | hgt
    · rw [List.getElem?_append_left (by rw [hA]; exact hlt)] at hj
      have : SOFT_HYPHEN ∈ w.take m := List.getElem?_mem hj
      exact absurd (List.take_subset _ _ this) hSH
    · subst heq
      refine ⟨j, List.mem_cons_self _ _, ?_, ?_⟩
      · have ht : (w.take j ++ SOFT_HYPHEN ::
            applyMarkers (w.drop j) (rest.map (fun x => x - j))).take j =
            w.take j := by
          rw [List.take_append_of_le_length (by omega), List.take_take]
          simp
        rw [ht]
        exact stripSH_of_not_memSH (fun hc => hSH (List.take_subset _ _ hc))
      · have hd : (w.take j ++ SOFT_HYPHEN ::
            applyMarkers (w.drop j) (rest.map (fun x => x - j))).drop (j + 1) =
            applyMarkers (w.drop j) (rest.map (fun x => x - j)) := by
          have : j + 1 = (w.take j).length + 1 := by omega
          rw [this, List.drop_append]
          rfl
        rw [hd]
        exact applyMarkers_stripSH _ _ (fun hc => hSH (List.drop_subset _ _ hc))
    · obtain ⟨k, hk⟩ : ∃ k, j = m + (k + 1) := ⟨j - m - 1, by omega⟩
      subst hk
      have hj2 : (applyMarkers (w.drop m) (rest.map (fun x => x - m)))[k]? =
          some SOFT_HYPHEN := by
        rw [List.getElem?_append_right (by omega)] at hj
        rw [hA] at hj
        have : m + (k + 1) - m = k + 1 := by omega
        rw [this, List.getElem?_cons_succ] at hj
        exact hj
      have ihh := ih (fun hc => hSH (List.drop_subset _ _ hc)) ?_ ?_ k hj2
      · obtain ⟨m2, hm2mem, ht2, hd2⟩ := ihh
        obtain ⟨x, hxmem, rfl⟩ := List.mem_map.1 hm2mem
        have hxm : m < x := hrest x hxmem
        refine ⟨x, List.mem_cons_of_mem _ hxmem, ?_, ?_⟩
        · have harr : m + (k + 1) = (w.take m).length + (k + 1) := by omega
          rw [harr, List.take_append, List.take_succ_cons]
          simp only [stripSH, List.filter_append, List.filter_cons]
          have hne : (SOFT_HYPHEN != SOFT_HYPHEN) = false := by simp
          rw [hne]
          simp only [Bool.false_eq_true, if_false]
          rw [stripSH] at ht2
          rw [ht2]
          have h1 : List.filter (fun c => c != SOFT_HYPHEN) (w.take m) =
              w.take m :=
            stripSH_of_not_memSH (fun hc => hSH (List.take_subset _ _ hc))
          rw [h1]
          have : m + (x - m) = x := by omega
          rw [← List.take_add, this]
        · have harr : m + (k + 1) + 1 = (w.take m).length + (k + 2) := by omega
          rw [harr, List.drop_append]
          have : List.drop (k + 2) (SOFT_HYPHEN ::
              applyMarkers (w.drop m) (rest.map (fun x => x - m))) =
              List.drop (k + 1)
                (applyMarkers (w.drop m) (rest.map (fun x => x - m))) := rfl
          rw [this, hd2, List.drop_drop]
          congr 1
          omega
      · refine List.pairwise_map.2 ?_
        refine List.Pairwise.imp_of_mem ?_ (List.pairwise_cons.1 hms).2
        intro a b ha hb hab
        have := hrest a ha
        omega
      · intro y hy
        obtain ⟨x, hxmem, rfl⟩ := List.mem_map.1 hy
        have h1 := hbound x (List.mem_cons_of_mem _ hxmem)
        rw [List.length_drop]
        omega

theorem hyphenateWord_applyMarkers (w : List Char) :
    hyphenateWord w = w ∨
      ∃ ms, hyphenateWord w = applyMarkers w ms ∧ ms.Pairwise (· < ·) ∧
        ∀ m ∈ ms, 2 ≤ m ∧ m + 2 ≤ w.length := by
  rw [hyphenateWord]
  split
  · exact Or.inl rfl
  · split
    · exact Or.inl rfl
    · split
      · exact Or.inl rfl
      · split
        · exact Or.inl rfl
        · right
          have hrev : ((findSyllableBoundaries w).reverse).Pairwise (· > ·) := by
            rw [List.pairwise_reverse]
            exact findSyllableBoundaries_pairwise_lt w
          have h0 : applyMarkers w [] = w := by rw [applyMarkers]
          obtain ⟨ms2, he, hsort, hb⟩ :=
            insertLoop_applyMarkers w ((findSyllableBoundaries w).reverse) []
              hrev List.Pairwise.nil (by simp) (by simp)
          rw [h0] at he
          exact ⟨ms2, he, hsort, hb⟩

/-- C3 (counterexample): on the word `anbau` the prefix rule records the
boundary 2 and `hyphenateWord` inserts a marker there: the marker at output
index 2 has exactly 2 original characters before it, so its offset in the
original word is 2, contradicting the claimed strict bound `2 < o`. -/
theorem C3_counterexample :
    hyphenateWord "anbau".toList = "an\u00ADbau".toList ∧
      (hyphenateWord "anbau".toList)[2]? = some SOFT_HYPHEN ∧
      (stripSH ((hyphenateWord "anbau".toList).take 2)).length = 2 := by
  refine ⟨by decide, by decide, by decide⟩

/-- C3 (amended): for every word `w` (with no pre-existing marker, so that
every marker in the output is one `hyphenateWord` inserted), every soft
hyphen in `hyphenateWord w` sits at an offset `o` of the original word with
`2 ≤ o ≤ length w - 2`: at least two original characters lie strictly before
it and at least two strictly after it. -/
theorem C3_markerBounds (w : List Char) (j : Nat) (hw : SOFT_HYPHEN ∉ w)
    (hj : (hyphenateWord w)[j]? = some SOFT_HYPHEN) :
    2 ≤ (stripSH ((hyphenateWord w).take j)).length ∧
      2 ≤ (stripSH ((hyphenateWord w).drop (j + 1))).length := by
  rcases hyphenateWord_applyMarkers w with heq | ⟨ms, heq, hsort, hb⟩
  · rw [heq] at hj
    exact absurd (List.getElem?_mem hj) hw
  · rw [heq] at hj ⊢
    obtain ⟨m, hmem, ht, hd⟩ := applyMarkers_markerSplit w ms hw hsort
      (fun m hm => by have := hb m hm; omega) j hj
    have hbm := hb m hmem
    rw [ht, hd]
    constructor
    · rw [List.length_take]
      omega
    · rw [List.length_drop]
      omega

/-- C3 (witness): the marker-bounds theorem applied to the word `HAMBURG`
and the marker at output index 3. -/
theorem C3_markerBounds_witness :
    SOFT_HYPHEN ∉ "HAMBURG".toList ∧
      (hyphenateWord "HAMBURG".toList)[3]? = some SOFT_HYPHEN ∧
      (2 ≤ (stripSH ((hyphenateWord "HAMBURG".toList).take 3)).length ∧
        2 ≤ (stripSH ((hyphenateWord "HAMBURG".toList).drop 4)).length) :=
  ⟨by decide, by decide,
    C3_markerBounds "HAMBURG".toList 3 (by decide) (by decide)⟩

/-! ## C7, C10: the text-level wrapper -/

theorem splitRunsGo_flatten (l : List Char) :
    ∀ (cls : Bool) (acc : List Char),
      (splitRunsGo cls acc l).flatten = acc.reverse ++ l := by
  induction l with
  | nil => intro cls acc; simp [splitRunsGo]
  | cons c rest ih =>
    intro cls acc
    rw [splitRunsGo]
    split
    · rw [ih]
      simp
    · simp only [List.flatten_cons, ih]
      simp

theorem splitRuns_flatten (l : List Char) : (splitRuns l).flatten = l := by
  rcases l with _ | ⟨c, rest⟩
  · rfl
  · rw [splitRuns, splitRunsGo_flatten]
    rfl

theorem splitRunsGo_append_same (middle : List Char) :
    ∀ (cls : Bool) (acc z : List Char), (∀ x ∈ middle, isWs x = cls) →
      splitRunsGo cls acc (middle ++ z) =
        splitRunsGo cls (middle.reverse ++ acc) z := by
  induction middle with
  | nil => intro cls acc z _; rfl
  | cons c mid ih =>
    intro cls acc z hmid
    have hc : (isWs c == cls) = true := by
      simp [hmid c (List.mem_cons_self _ _)]
    rw [List.cons_append, splitRunsGo, if_pos hc,
      ih cls (c :: acc) z (fun x hx => hmid x (List.mem_cons_of_mem _ hx))]
    congr 1
    simp

theorem uniformRun_any {b : Bool} {r : List Char} (hne : r ≠ [])
    (hu : uniformRun b r) : runWs r = b := by
  rcases r with _ | ⟨c, r0⟩
  · exact absurd rfl hne
  · rcases hb : b with _ | _
    · rw [runWs, List.any_eq_false]
      intro x hx
      rw [hu x hx, hb]
      exact Bool.false_ne_true
    · rw [runWs, List.any_eq_true]
      exact ⟨c, List.mem_cons_self _ _, by rw [hu c (List.mem_cons_self _ _), hb]⟩

theorem splitRunsGo_good (l : List Char) :
    ∀ (cls : Bool) (acc : List Char), acc ≠ [] → uniformRun cls acc →
      ∃ r1 rs1, splitRunsGo cls acc l = r1 :: rs1 ∧ runWs r1 = cls ∧
        goodRuns (r1 :: rs1) := by
  induction l with
  | nil =>
    intro cls acc hne hu
    have hrne : acc.reverse ≠ [] := by
      simp only [ne_eq, List.reverse_eq_nil_iff]
      exact hne
    have hru : uniformRun cls acc.reverse := fun c hc =>
      hu c (List.mem_reverse.1 hc)
    refine ⟨acc.reverse, [], rfl, uniformRun_any hrne hru, ?_, ?_⟩
    · exact List.chain'_singleton _
    · intro r hr
      rcases List.mem_singleton.1 hr with rfl
      exact ⟨hrne, by rw [uniformRun_any hrne hru]; exact hru⟩
  | cons c rest ih =>
    intro cls acc hne hu
    rw [splitRunsGo]
    split
    · rename_i hc
      have hc' : isWs c = cls := by simpa using hc
      exact ih cls (c :: acc) (List.cons_ne_nil _ _)
        (fun x hx => by
          rcases List.mem_cons.1 hx with rfl | hx2
          · exact hc'
          · exact hu x hx2)
    · rename_i hc
      have hc' : isWs c ≠ cls := by simpa using hc
      obtain ⟨r1, rs1, hgo, hr1, hchain, hall⟩ :=
        ih (isWs c) [c] (List.cons_ne_nil _ _)
          (fun x hx => by rcases List.mem_singleton.1 hx with rfl; rfl)
      have hrne : acc.reverse ≠ [] := by
        simp only [ne_eq, List.reverse_eq_nil_iff]
        exact hne
      have hru : uniformRun cls acc.reverse := fun x hx =>
        hu x (List.mem_reverse.1 hx)
      have hcls : runWs acc.reverse = cls := uniformRun_any hrne hru
      rw [hgo]
      refine ⟨acc.reverse, r1 :: rs1, rfl, hcls, ?_, ?_⟩
      · rw [List.chain'_cons]
        refine ⟨?_, hchain⟩
        rw [hcls, hr1]
        exact fun h => hc' h.symm
      · intro r hr
        rcases List.mem_cons.1 hr with rfl | hr2
        · exact ⟨hrne, by rw [hcls]; exact hru⟩
        · exact hall r hr2

theorem goodRuns_splitRuns (l : List Char) : goodRuns (splitRuns l) := by
  rcases l with _ | ⟨c, rest⟩
  · exact ⟨List.chain'_nil, fun r hr => absurd hr (List.not_mem_nil r)⟩
  · rw [splitRuns]
    obtain ⟨r1, rs1, hgo, _, hgood⟩ :=
      splitRunsGo_good rest (isWs c) [c] (List.cons_ne_nil _ _)
        (fun x hx => by rcases List.mem_singleton.1 hx with rfl; rfl)
    rw [hgo]
    exact hgood

theorem splitRuns_of_goodRuns : ∀ (rs : List (List Char)), goodRuns rs →
    splitRuns rs.flatten = rs := by
  intro rs
  induction rs with
  | nil => intro _; rfl
  | cons r rest ih =>
    intro hg
    obtain ⟨hchain, hall⟩ := hg
    obtain ⟨hrne, hru⟩ := hall r (List.mem_cons_self _ _)
    rcases hr : r with _ | ⟨c, r0⟩
    · exact absurd hr hrne
    · subst hr
      have hcc : isWs c = runWs (c :: r0) :=
        hru c (List.mem_cons_self _ _)
      have huni : ∀ x ∈ r0, isWs x = isWs c := fun x hx => by
        rw [hru x (List.mem_cons_of_mem _ hx), hcc]
      rw [List.flatten_cons, List.cons_append, splitRuns,
        splitRunsGo_append_same r0 (isWs c) [c] rest.flatten huni]
      rcases rest with _ | ⟨r2, rest2⟩
      · rw [List.flatten_nil, splitRunsGo]
        simp
      · obtain ⟨hr2ne, hr2u⟩ := hall r2 (List.mem_cons_of_mem _ (List.mem_cons_self _ _))
        rcases hr2 : r2 with _ | ⟨c2, r20⟩
        · exact absurd hr2 hr2ne
        · subst hr2
          have hc2 : isWs c2 = runWs (c2 :: r20) :=
            hr2u c2 (List.mem_cons_self _ _)
          have hrel : runWs (c :: r0) ≠ runWs (c2 :: r20) :=
            (List.chain'_cons.1 hchain).1
          have hne2 : (isWs c2 == isWs c) = false := by
            rw [hc2, hcc]
            simp only [beq_eq_false_iff_ne, ne_eq]
            exact fun h => hrel h.symm
          rw [List.flatten_cons, List.cons_append, splitRunsGo, if_neg (by
            rw [hne2]
            exact Bool.false_ne_true)]
          have htail : splitRunsGo (isWs c2) [c2] (r20 ++ (rest2.flatten)) =
              splitRuns ((c2 :: r20) :: rest2).flatten := by
            rw [List.flatten_cons, List.cons_append, splitRuns]
          rw [htail, ih ⟨(List.chain'_cons.1 hchain).2,
            fun x hx => hall x (List.mem_cons_of_mem _ hx)⟩]
          congr 1
          simp

theorem isWs_SOFT_HYPHEN : isWs SOFT_HYPHEN = false := by decide

theorem runWs_hyphenateRun {r : List Char} (hne : r ≠ [])
    (hu : uniformRun (runWs r) r) :
    hyphenateRun r ≠ [] ∧ uniformRun (runWs r) (hyphenateRun r) ∧
      runWs (hyphenateRun r) = runWs r := by
  rw [hyphenateRun]
  split
  · exact ⟨hne, hu, rfl⟩
  · rename_i hws
    have hb : runWs r = false := by
      rcases hbb : runWs r with _ | _
      · rfl
      · exfalso
        apply hws
        rw [wsRunB]
        simp only [Bool.and_eq_true, Bool.not_eq_true']
        constructor
        · simpa [List.isEmpty_iff] using hne
        · rw [List.all_eq_true]
          intro c hc
          rw [hu c hc, hbb]
    have hu2 : uniformRun (runWs r) (hyphenateWord r) := by
      intro c hc
      rcases hyphenateWord_subset hc with hc2 | rfl
      · exact hu c hc2
      · rw [hb]
        exact isWs_SOFT_HYPHEN
    have hne2 : hyphenateWord r ≠ [] := hyphenateWord_ne_nil hne
    exact ⟨hne2, hu2, uniformRun_any hne2 hu2⟩

theorem goodRuns_map_hyphenateRun : ∀ (rs : List (List Char)), goodRuns rs →
    goodRuns (rs.map hyphenateRun) := by
  intro rs
  induction rs with
  | nil => intro _; exact ⟨List.chain'_nil, fun r hr => absurd hr (List.not_mem_nil r)⟩
  | cons r rest ih =>
    intro ⟨hchain, hall⟩
    obtain ⟨hrne, hru⟩ := hall r (List.mem_cons_self _ _)
    obtain ⟨hfne, hfu, hfw⟩ := runWs_hyphenateRun hrne hru
    have hgrest : goodRuns rest :=
      ⟨(List.chain'_cons'.1 hchain).2, fun x hx => hall x (List.mem_cons_of_mem _ hx)⟩
    obtain ⟨hchain2, hall2⟩ := ih hgrest
    constructor
    · rw [List.map_cons]
      rw [List.chain'_cons']
      refine ⟨?_, hchain2⟩
      intro y hy
      rcases rest with _ | ⟨r2, rest2⟩
      · simp at hy
      · simp only [List.map_cons, List.head?_cons, Option.mem_def,
          Option.some.injEq] at hy
        subst hy
        obtain ⟨hr2ne, hr2u⟩ := hall r2
          (List.mem_cons_of_mem _ (List.mem_cons_self _ _))
        obtain ⟨_, _, hfw2⟩ := runWs_hyphenateRun hr2ne hr2u
        rw [hfw, hfw2]
        exact (List.chain'_cons.1 hchain).1
    · intro x hx
      rcases List.mem_map.1 hx with ⟨y, hymem, rfl⟩
      obtain ⟨hyne, hyu⟩ := hall y hymem
      obtain ⟨h1, h2, h3⟩ := runWs_hyphenateRun hyne hyu
      exact ⟨h1, by rw [h3]; exact h2⟩

theorem stripSH_flatten_hyphenateRun : ∀ (rs : List (List Char)),
    (∀ r ∈ rs, SOFT_HYPHEN ∉ r) →
    stripSH ((rs.map hyphenateRun).flatten) = rs.flatten := by
  intro rs
  induction rs with
  | nil => intro _; rfl
  | cons r rest ih =>
    intro hsh
    rw [List.map_cons, List.flatten_cons, List.flatten_cons, stripSH,
      List.filter_append]
    have h1 : List.filter (fun c => c != SOFT_HYPHEN) (hyphenateRun r) = r := by
      rw [hyphenateRun]
      split
      · exact stripSH_of_not_memSH (hsh r (List.mem_cons_self _ _))
      · exact stripSH_hyphenateWord (hsh r (List.mem_cons_self _ _))
    have h2 := ih (fun x hx => hsh x (List.mem_cons_of_mem _ hx))
    rw [stripSH] at h2
    rw [h1, h2]

/-- C7 (counterexample): for the input text consisting of the three
characters `x`, U+00AD, `y` (a single non-whitespace token that already
contains a soft hyphen), `hyphenateText` returns the text unchanged, and
removing all U+00AD characters yields `xy`, not the original text: the
claimed round-trip fails for texts that already contain U+00AD. -/
theorem C7_counterexample :
    stripSH (hyphenateText "x\u00ADy".toList) ≠ "x\u00ADy".toList := by decide

/-- C7 (amended): for every text that does not already contain U+00AD,
removing all U+00AD characters from `hyphenateText text` reconstructs `text`
exactly; moreover the run decomposition of the output is exactly the run
decomposition of the input with each non-whitespace run hyphenated and each
whitespace run unchanged in content and position. -/
theorem C7_whitespacePreservation (t : List Char) (h : SOFT_HYPHEN ∉ t) :
    stripSH (hyphenateText t) = t ∧
      splitRuns (hyphenateText t) = (splitRuns t).map hyphenateRun := by
  have hsub : ∀ r ∈ splitRuns t, SOFT_HYPHEN ∉ r := by
    intro r hr hc
    apply h
    rw [← splitRuns_flatten t]
    exact List.mem_flatten.2 ⟨r, hr, hc⟩
  constructor
  · rw [hyphenateText, stripSH_flatten_hyphenateRun (splitRuns t) hsub,
      splitRuns_flatten]
  · rw [hyphenateText]
    exact splitRuns_of_goodRuns _
      (goodRuns_map_hyphenateRun _ (goodRuns_splitRuns t))

/-- C7 (witness): the whitespace-preservation theorem applied to the text
`HAMBURG IST SCHÖN`. -/
theorem C7_whitespacePreservation_witness :
    SOFT_HYPHEN ∉ "HAMBURG IST SCHÖN".toList ∧
      (stripSH (hyphenateText "HAMBURG IST SCHÖN".toList) =
          "HAMBURG IST SCHÖN".toList ∧
        splitRuns (hyphenateText "HAMBURG IST SCHÖN".toList) =
          (splitRuns "HAMBURG IST SCHÖN".toList).map hyphenateRun) :=
  ⟨by decide, C7_whitespacePreservation "HAMBURG IST SCHÖN".toList (by decide)⟩

/-- C10: `hyphenateText` tokenizes only at whitespace, so every
whitespace-delimited run that contains any character outside the German
alphabet (a digit, punctuation such as a trailing comma, or any other
non-letter) appears in the output decomposition completely unchanged: no
marker is inserted even into its purely alphabetic part. -/
theorem C10_nonAlphabeticToken (t : List Char) (i : Nat) (r : List Char)
    (hr : (splitRuns t)[i]? = some r)
    (hc : ∃ c ∈ r, isGermanLetter c = false) :
    (splitRuns (hyphenateText t))[i]? = some r := by
  have hresplit : splitRuns (hyphenateText t) = (splitRuns t).map hyphenateRun := by
    rw [hyphenateText]
    exact splitRuns_of_goodRuns _
      (goodRuns_map_hyphenateRun _ (goodRuns_splitRuns t))
  rw [hresplit, List.getElem?_map, hr, Option.map_some']
  congr 1
  rw [hyphenateRun]
  split
  · rfl
  · exact hyphenateWord_of_nonGerman hc

/-- C10 (witness): the non-alphabetic-token theorem applied to the text
`HAMBURG,` (a single token with a trailing comma), which is returned
unchanged. -/
theorem C10_nonAlphabeticToken_witness :
    (splitRuns "HAMBURG,".toList)[0]? = some "HAMBURG,".toList ∧
      (∃ c ∈ "HAMBURG,".toList, isGermanLetter c = false) ∧
      (splitRuns (hyphenateText "HAMBURG,".toList))[0]? =
        some "HAMBURG,".toList :=
  ⟨by decide, ⟨',', by decide, by decide⟩,
    C10_nonAlphabeticToken "HAMBURG,".toList 0 "HAMBURG,".toList (by decide)
      ⟨',', by decide, by decide⟩⟩

/-! ## C1: the shared table state -/

theorem scanStepT_tables (lw : List Char) (st : List Nat × HyphTables)
    (i : Nat) :
    (scanStepT lw st i).2 = st.2 ∨
      (scanStepT lw st i).2 = { st.2 with cls := sortLenDesc st.2.cls } := by
  simp only [scanStepT]
  split_ifs <;> first | exact Or.inl rfl | exact Or.inr rfl

theorem foldl_scanStepT_perm (lw : List Char) (L : List Nat) :
    ∀ st : List Nat × HyphTables,
      ((L.foldl (scanStepT lw) st).2.pfx = st.2.pfx) ∧
      ((L.foldl (scanStepT lw) st).2.sfx = st.2.sfx) ∧
      (L.foldl (scanStepT lw) st).2.cls.Perm st.2.cls := by
  induction L with
  | nil => exact fun st => ⟨rfl, rfl, List.Perm.refl _⟩
  | cons i L ih =>
    intro st
    rw [List.foldl_cons]
    obtain ⟨h1, h2, h3⟩ := ih (scanStepT lw st i)
    rcases scanStepT_tables lw st i with hshape | hshape <;>
      rw [hshape] at h1 h2 h3
    · exact ⟨h1, h2, h3⟩
    · exact ⟨h1, h2, h3.trans (List.perm_insertionSort _ _)⟩

theorem foldl_scanStepT_stable (lw : List Char) (L : List Nat) :
    ∀ st : List Nat × HyphTables, st.2 = stableTables →
      (L.foldl (scanStepT lw) st).2 = stableTables := by
  induction L with
  | nil => exact fun st h => h
  | cons i L ih =>
    intro st h
    rw [List.foldl_cons]
    refine ih _ ?_
    rcases scanStepT_tables lw st i with hshape | hshape <;> rw [hshape, h]
    have hc : sortLenDesc stableTables.cls = stableTables.cls := by decide
    rw [hc]

theorem findSyllableBoundariesT_perm (w : List Char) (t : HyphTables) :
    (findSyllableBoundariesT w t).2.pfx.Perm t.pfx ∧
      (findSyllableBoundariesT w t).2.sfx.Perm t.sfx ∧
      (findSyllableBoundariesT w t).2.cls.Perm t.cls := by
  rw [findSyllableBoundariesT]
  split
  · exact ⟨List.Perm.refl _, List.Perm.refl _, List.Perm.refl _⟩
  · dsimp only
    obtain ⟨h1, h2, h3⟩ := foldl_scanStepT_perm (w.map toLowerGerman) _ _
    rw [h1, h2]
    exact ⟨List.perm_insertionSort _ _, List.perm_insertionSort _ _, h3⟩

theorem findSyllableBoundariesT_stable (w : List Char) :
    (findSyllableBoundariesT w stableTables).2 = stableTables := by
  rw [findSyllableBoundariesT]
  split
  · rfl
  · dsimp only
    refine foldl_scanStepT_stable (w.map toLowerGerman) _ _ ?_
    have hp : sortLenDesc stableTables.pfx = stableTables.pfx := by decide
    have hs : sortLenDesc stableTables.sfx = stableTables.sfx := by decide
    dsimp only
    rw [hp, hs]

theorem hyphenateWordT_tables (w : List Char) (t : HyphTables) :
    (hyphenateWordT w t).2 = t ∨
      (hyphenateWordT w t).2 = (findSyllableBoundariesT w t).2 := by
  rw [hyphenateWordT]
  split_ifs <;> first | exact Or.inl rfl | exact Or.inr rfl

/-- C1 (counterexample): the table literals are not sorted longest-first at
initialization, and the very first call to `hyphenateWord` (on `HAMBURG`)
mutates the shared table state: `findSyllableBoundaries` re-sorts the shared
`PREFIXES` and `SUFFIXES` arrays in place, so the invocation does not leave
the shared lists unchanged.  Moreover mutation is not confined to the first
call: `HAMBURG` never enters the vowel–consonant–vowel branch, so after that
call the shared `INSEPARABLE_CLUSTERS` list is still in its unsorted literal
order, and a later call on `leben` (whose vowel–consonant–vowel branch runs)
re-sorts and thereby mutates it. -/
theorem C1_counterexample :
    (hyphenateWordT "HAMBURG".toList initTables).2 ≠ initTables ∧
      initTables.pfx ≠ sortLenDesc initTables.pfx ∧
      (hyphenateWordT "HAMBURG".toList initTables).2.cls =
        INSEPARABLE_CLUSTERS ∧
      INSEPARABLE_CLUSTERS ≠ sortLenDesc INSEPARABLE_CLUSTERS ∧
      (hyphenateWordT "leben".toList
          (hyphenateWordT "HAMBURG".toList initTables).2).2.cls ≠
        (hyphenateWordT "HAMBURG".toList initTables).2.cls := by
  refine ⟨by decide, by decide, by decide, by decide, by decide⟩

/-- C1 (amended): the shared lists are NOT sorted once at initialization:
every call of `hyphenateWord` that reaches `findSyllableBoundaries` re-sorts
the shared `PREFIXES` and `SUFFIXES` arrays in place (and
`INSEPARABLE_CLUSTERS` whenever the vowel–consonant–vowel branch runs, which
need not happen on the first call).  However, each such sort only stably
permutes the list into longest-first order, so (1) no call ever adds,
removes or otherwise changes the entries — the multiset of every table is
preserved — and (2) the fully length-sorted table state is a fixed point:
once all three lists are in longest-first order, every further invocation
leaves them unchanged. -/
theorem C1_tableState (w : List Char) (t : HyphTables) :
    ((hyphenateWordT w t).2.pfx.Perm t.pfx ∧
      (hyphenateWordT w t).2.sfx.Perm t.sfx ∧
      (hyphenateWordT w t).2.cls.Perm t.cls) ∧
      (hyphenateWordT w stableTables).2 = stableTables := by
  constructor
  · rcases hyphenateWordT_tables w t with h | h <;> rw [h]
    · exact ⟨List.Perm.refl _, List.Perm.refl _, List.Perm.refl _⟩
    · exact findSyllableBoundariesT_perm w t
  · rcases hyphenateWordT_tables w stableTables with h | h <;> rw [h]
    exact findSyllableBoundariesT_stable w

/-! ## Bridge between the pure and table-state embeddings -/

theorem perm_any {α : Type} (p : α → Bool) {l1 l2 : List α}
    (h : l1.Perm l2) : l1.any p = l2.any p := by
  rcases hb : l2.any p with _ | _
  · rw [List.any_eq_false] at hb ⊢
    intro x hx
    exact hb x (h.mem_iff.1 hx)
  · rw [List.any_eq_true] at hb ⊢
    obtain ⟨x, hx, hpx⟩ := hb
    exact ⟨x, h.mem_iff.2 hx, hpx⟩

theorem scanStepT_stable_step (lw : List Char) (st : List Nat × HyphTables)
    (i : Nat) (h : st.2 = stableTables) :
    (scanStepT lw st i).2 = stableTables := by
  rcases scanStepT_tables lw st i with hs | hs <;> rw [hs, h]
  have hc : sortLenDesc stableTables.cls = stableTables.cls := by decide
  rw [hc]

theorem scanStepT_fst_stable (lw : List Char) (st : List Nat × HyphTables)
    (i : Nat) (h : st.2 = stableTables) :
    (scanStepT lw st i).1 = scanStep lw st.1 i := by
  have hany : ∀ tc : List Char,
      stableTables.cls.any (fun ic => containsSeq tc ic) =
        INSEPARABLE_CLUSTERS.any (fun ic => containsSeq tc ic) :=
    fun tc => perm_any _ (List.perm_insertionSort _ _)
  simp only [scanStepT, scanStep, h, hany]
  split_ifs <;> rfl

theorem foldl_scanStepT_fst (lw : List Char) (L : List Nat) :
    ∀ st : List Nat × HyphTables, st.2 = stableTables →
      (L.foldl (scanStepT lw) st).1 = L.foldl (scanStep lw) st.1 := by
  induction L with
  | nil => intro st _; rfl
  | cons i L ih =>
    intro st h
    rw [List.foldl_cons, List.foldl_cons,
      ih _ (scanStepT_stable_step lw st i h),
      scanStepT_fst_stable lw st i h]

theorem findSyllableBoundariesT_fst (w : List Char) :
    (findSyllableBoundariesT w stableTables).1 = findSyllableBoundaries w := by
  have hp : sortLenDesc stableTables.pfx = stableTables.pfx := by decide
  have hs : sortLenDesc stableTables.sfx = stableTables.sfx := by decide
  have ep : stableTables.pfx = sortedPREFIXES := rfl
  have es : stableTables.sfx = sortedSUFFIXES := rfl
  rw [findSyllableBoundariesT, findSyllableBoundaries]
  by_cases h4 : w.length < 4
  · rw [if_pos h4, if_pos h4]
  · rw [if_neg h4, if_neg h4]
    dsimp only
    rw [hp, hs, ep, es]
    have hfold := foldl_scanStepT_fst (w.map toLowerGerman)
      (List.range'
        ((match sortedPREFIXES.find? (prefixPred (w.map toLowerGerman) w.length) with
          | some p => p.length
          | none => 0) + 1)
        ((match sortedSUFFIXES.find? (suffixPred (w.map toLowerGerman) w.length) with
          | some s => w.length - s.length
          | none => w.length) -
          (match sortedPREFIXES.find? (prefixPred (w.map toLowerGerman) w.length) with
            | some p => p.length
            | none => 0) - 2))
      ((match sortedPREFIXES.find? (prefixPred (w.map toLowerGerman) w.length) with
          | some p => [p.length]
          | none => []),
        { pfx := sortedPREFIXES, sfx := sortedSUFFIXES,
          cls := stableTables.cls }) rfl
    simp only [prefixScan, suffixStartOf, suffixScan]
    rw [hfold]

theorem hyphenateWordT_fst (w : List Char) :
    (hyphenateWordT w stableTables).1 = hyphenateWord w := by
  have hb := findSyllableBoundariesT_fst w
  rw [hyphenateWordT, hyphenateWord, hb]
  split_ifs <;> rfl

end Hyph
